import Mathlib

/-!
# logger.c: line assembler, rolling aggregator and retention pruner

A shallow embedding of `src/logger.c`.

Modelling conventions.

* A C `char` is a `Char`; a `char[]` holding text is a `List Char`.  The byte
  `'\0'` ends a C string, so every library call that takes a `char*`
  (`atof`, `sscanf`, `fputs`) sees `cstr buf`, the bytes before the first NUL.
* C `int`, `long` and `time_t` values are integers (`Int`); array indices are
  `Nat`.  The development covers executions in which no signed counter
  overflows (signed overflow is undefined in C and needs 2^31 readings inside
  one aggregation window, see `counts_bounded_by_readings`), and `%d` converts
  a digit string to its exact value.  File names are ASCII.
* `float`/`double` arithmetic is not interpreted: the three operations the
  program performs on floating-point values are the fields of `FloatOps`, and
  every theorem holds for every interpretation of them.  `exactOps` is the
  interpretation by exact rational arithmetic, used to evaluate examples.
* Library functions whose result depends on the host (`mktime`, `atof`, the
  `%.2f` conversion of `fprintf`, the wall clock) are parameters.
* A write outside an array and the use of a null `FILE*` are faults: a function
  that can perform one returns in `Option`/`Except`.
-/

namespace Logger

/-! ## C strings -/

/-- The terminating byte of a C string. -/
def NUL : Char := Char.ofNat 0

/-- The C string stored in a character array: the bytes before the first NUL. -/
def cstr (buf : List Char) : List Char :=
  buf.takeWhile (fun c => c != NUL)

/-- Assignment `a[i] = c` to a C array: a fault when `i` is outside the array. -/
def store (a : List Char) (i : Nat) (c : Char) : Option (List Char) :=
  if i < a.length then some (a.set i c) else none

/-! ## Line assembler (`main`, lines 193-208) -/

/-- The locals `str_buf` and `pos` of `main`. -/
structure Assembler where
  str_buf : List Char
  pos : Nat
deriving DecidableEq, Repr

/-- The state at line 194: `char str_buf[64]` holding `buf`, `pos = 0`. -/
def Assembler.init (buf : List Char) : Assembler :=
  { str_buf := buf, pos := 0 }

/--
Lines 200-206 for one received byte `chunk[0] = c`.  The second component is
`none` when the iteration ends at `continue` (no Reading) and `some record`
when control reaches line 208, where `record` is the C string handed to
`atof`.  The result is `none` when a store falls outside `str_buf`.
-/
def feed (st : Assembler) (c : Char) : Option (Assembler × Option (List Char)) :=
  if c ≠ '\n' ∧ st.pos < 63 then
    (store st.str_buf st.pos c).map
      (fun buf => ({ str_buf := buf, pos := st.pos + 1 }, none))
  else
    (store st.str_buf st.pos NUL).map
      (fun buf => ({ str_buf := buf, pos := 0 }, some (cstr buf)))

/--
The assembler run over a byte sequence: the final state and, for every byte in
order, what `feed` produced for it.
-/
def feed_all : Assembler → List Char → Option (Assembler × List (Option (List Char)))
  | st, [] => some (st, [])
  | st, c :: cs =>
    match feed st c with
    | none => none
    | some (st1, out) =>
      match feed_all st1 cs with
      | none => none
      | some (st2, outs) => some (st2, out :: outs)

/-- Number of Readings in a trace of `feed_all`. -/
def readings (outs : List (Option (List Char))) : Nat :=
  (outs.filter Option.isSome).length

/-! ## Floating point and the aggregation windows (lines 162-166, 190-191) -/

/--
The floating-point operations of the program, left uninterpreted: `D` stands
for `double`, `F` for `float`.
-/
structure FloatOps (D F : Type) where
  /-- The constant `0` stored into `stats.sum` (lines 190, 191, 227, 238). -/
  zero : D
  /-- The update `sum += temp` (lines 216, 218): `temp` is promoted and added. -/
  add : D → F → D
  /-- The expression `(float)(sum / count)` (lines 223, 234). -/
  div : D → Int → F

/-- Exact rational arithmetic as an interpretation of the operations. -/
def exactOps : FloatOps ℚ ℚ :=
  { zero := 0, add := fun s v => s + v, div := fun s n => s / (n : ℚ) }

/-- The C type `stats` (lines 162-166). -/
structure stats (D : Type) where
  sum : D
  count : Int
  last_time_unit : Int
deriving DecidableEq, Repr

/-- The operands of one evaluation of `sum / count` (lines 223 and 234). -/
structure Division (D : Type) where
  num : D
  den : Int
deriving DecidableEq, Repr

/-! ## Files -/

/-- The files of the working directory: a name has a content or does not exist. -/
abbrev FS := String → Option (List Char)

/-- The content of a file is replaced (the file is created when missing). -/
def FS.write (fs : FS) (name : String) (data : List Char) : FS :=
  fun n => if n = name then some data else fs n

/-- The C library `remove`: a missing file is left missing. -/
def FS.remove (fs : FS) (name : String) : FS :=
  fun n => if n = name then none else fs n

/-- The C library `rename`: nothing happens when `old` does not exist. -/
def FS.rename (fs : FS) (old new : String) : FS :=
  match fs old with
  | none => fs
  | some data => fun n => if n = new then some data else if n = old then none else fs n

/-- The directory with no file. -/
def FS.empty : FS := fun _ => none

/--
The function `append_log` (lines 114-120).  `fopen(filename, "a")` creates a
missing file and is taken to succeed; `time_str` is the text of the `%s`
argument and `fmt value` the text `%.2f` prints.
-/
def append_log {F : Type} (fmt : F → List Char) (fs : FS) (filename : String)
    (time_str : List Char) (value : F) : FS :=
  fs.write filename
    ((fs filename).getD [] ++ (time_str ++ " | ".toList ++ fmt value ++ ['\n']))

/-! ## Retention pruner: `clean_logs` (lines 122-160) -/

/-- The fields of `struct tm` that `clean_logs` sets (lines 135-142). -/
structure tm where
  tm_year : Int
  tm_mon : Int
  tm_mday : Int
  tm_hour : Int
  tm_min : Int
  tm_sec : Int
  tm_isdst : Int
deriving DecidableEq, Repr

/-- The C library `isspace` in the "C" locale. -/
def isspace (c : Char) : Bool :=
  c = ' ' || c = '\t' || c = '\n' || c = Char.ofNat 11 || c = Char.ofNat 12 || c = '\r'

/-- The value of a string of decimal digits. -/
def digits_value (ds : List Char) : Nat :=
  ds.foldl (fun n d => 10 * n + (d.toNat - '0'.toNat)) 0

/--
The `%d` directive of `sscanf`: white space is skipped, an optional sign and
then the longest non-empty run of decimal digits are read.  The result is the
converted value and the unread input, `none` on a matching failure.
-/
def scan_int (s : List Char) : Option (Int × List Char) :=
  let s1 := s.dropWhile isspace
  let signed : Bool × List Char :=
    match s1 with
    | '-' :: r => (true, r)
    | '+' :: r => (false, r)
    | _ => (false, s1)
  let ds := signed.2.takeWhile Char.isDigit
  let rest := signed.2.dropWhile Char.isDigit
  if ds = [] then none
  else some (if signed.1 then - (digits_value ds : Int) else (digits_value ds : Int), rest)

/-- An ordinary character of a `sscanf` format: the next input byte must be it. -/
def scan_char (c : Char) : List Char → Option (List Char)
  | [] => none
  | d :: r => if d = c then some r else none

/--
The call `sscanf(line, "%d-%d-%d %d:%d:%d", &Y, &M, &D, &h, &m, &s)` of line
134: `some (Y, M, D, h, m, s)` when it returns 6, `none` otherwise.
-/
def sscanf_date (line : List Char) : Option (Int × Int × Int × Int × Int × Int) := do
  let (Y, s) ← scan_int line
  let s ← scan_char '-' s
  let (M, s) ← scan_int s
  let s ← scan_char '-' s
  let (D, s) ← scan_int s
  let s := s.dropWhile isspace
  let (h, s) ← scan_int s
  let s ← scan_char ':' s
  let (m, s) ← scan_int s
  let s ← scan_char ':' s
  let (sec, _) ← scan_int s
  pure (Y, M, D, h, m, sec)

/-- Reading at most `n` bytes of a line: up to and including the first newline. -/
def fgets_read : Nat → List Char → List Char × List Char
  | 0, s => ([], s)
  | _ + 1, [] => ([], [])
  | n + 1, c :: s =>
    if c = '\n' then ([c], s)
    else ((fgets_read n s).1.cons c, (fgets_read n s).2)

/--
The C library `fgets(line, size, src)` on a stream with unread bytes `src`:
`none` (a null result) at end of file, else the bytes stored in `line` and the
bytes left unread.
-/
def fgets (size : Nat) (src : List Char) : Option (List Char × List Char) :=
  if src = [] then none else some (fgets_read (size - 1) src)

/--
The body of the `while` loop (lines 133-150) for one `line`: the new content
of `dst`.  `difftime(now, record_time)` is the difference of the two times.
-/
def clean_line (mktime : tm → Int) (now max_age_seconds : Int)
    (line dst : List Char) : List Char :=
  match sscanf_date (cstr line) with
  | some (Y, M, D, h, m, s) =>
    let t : tm := { tm_year := Y - 1900, tm_mon := M - 1, tm_mday := D,
                    tm_hour := h, tm_min := m, tm_sec := s, tm_isdst := -1 }
    let record_time := mktime t
    let diff := now - record_time
    if diff ≤ max_age_seconds then dst ++ cstr line else dst
  | none => dst

/--
The `while` loop of lines 132-151 run for at most `fuel` iterations over the
unread bytes `src`, with `dst` the bytes written so far: the final content of
`dst`, or `none` when the iterations run out.
-/
def clean_loop (mktime : tm → Int) (now max_age_seconds : Int) :
    Nat → List Char → List Char → Option (List Char)
  | 0, _, _ => none
  | fuel + 1, src, dst =>
    match fgets 128 src with
    | none => some dst
    | some (line, rest) =>
      clean_loop mktime now max_age_seconds fuel rest
        (clean_line mktime now max_age_seconds line dst)

/-- Why a call of `clean_logs` did not return. -/
inductive Fault where
  /-- The name does not fit `temp_filename[100]` (line 124). -/
  | name_overflow
  /-- The stream `src` is null at `fgets` (line 132). -/
  | null_stream
  /-- The loop model ran out of iterations. -/
  | no_fuel
deriving DecidableEq, Repr

/--
The function `clean_logs` (lines 122-160), with `now` the value of
`time(NULL)` at line 129.  The result is the directory on return, or the fault
and the directory at the fault.
-/
def clean_logs (mktime : tm → Int) (now : Int) (fs : FS) (filename : String)
    (max_age_seconds : Int) : Except (Fault × FS) FS :=
  if 100 < filename.length + 5 then .error (.name_overflow, fs)
  else
    let temp_filename := filename ++ ".tmp"
    let src := fs filename
    let fs1 := fs.write temp_filename []
    match src with
    | none => .error (.null_stream, fs1)
    | some content =>
      match clean_loop mktime now max_age_seconds (content.length + 1) content [] with
      | none => .error (.no_fuel, fs1)
      | some dst =>
        .ok (((fs1.write temp_filename dst).remove filename).rename temp_filename filename)

/-! ## Driver loop (`main`, lines 190-258) -/

def SEC_IN_DAY : Int := 24 * 3600
def SEC_IN_MONTH : Int := 24 * 30 * 3600
def SEC_IN_YEAR : Int := 365 * 24 * 3600

/-- The values the wall clock gives during one iteration that reaches line 208. -/
structure Clock where
  /-- The text `get_time` writes (line 210). -/
  time_buf : List Char
  /-- The result of `get_current_hour()` (line 221). -/
  curr_hour : Int
  /-- The result of `get_current_day()` (line 232). -/
  curr_day : Int
  /-- The result of `time(NULL)` at line 243. -/
  now : Int
  /-- The results of `time(NULL)` in the three calls of `clean_logs`. -/
  now_raw : Int
  now_hour : Int
  now_day : Int

/--
The locals of `main` and the directory.  `divisions` is a history variable: the
operands of every `sum / count` evaluated so far, oldest first.
-/
structure State (D : Type) where
  asm : Assembler
  hour_stats : stats D
  day_stats : stats D
  last_cleanup : Int
  fs : FS
  divisions : List (Division D)

/-- The state on entry to the loop (lines 190-195). -/
def State.start {D F : Type} (ops : FloatOps D F) (buf : List Char)
    (hour day : Int) (fs : FS) : State D :=
  { asm := Assembler.init buf
    hour_stats := { sum := ops.zero, count := 0, last_time_unit := hour }
    day_stats := { sum := ops.zero, count := 0, last_time_unit := day }
    last_cleanup := 0
    fs := fs
    divisions := [] }

/-- Lines 214-219: the raw log line, then both windows take the reading. -/
def accumulate {D F : Type} (ops : FloatOps D F) (fmt : F → List Char)
    (st : State D) (clk : Clock) (temp : F) : State D :=
  { st with
    fs := append_log fmt st.fs "log_raw.txt" clk.time_buf temp
    hour_stats := { st.hour_stats with
      sum := ops.add st.hour_stats.sum temp, count := st.hour_stats.count + 1 }
    day_stats := { st.day_stats with
      sum := ops.add st.day_stats.sum temp, count := st.day_stats.count + 1 } }

/-- Lines 221-230: the hour window is flushed when the hour has changed. -/
def hour_rollover {D F : Type} (ops : FloatOps D F) (fmt : F → List Char)
    (st : State D) (clk : Clock) : State D :=
  if clk.curr_hour ≠ st.hour_stats.last_time_unit then
    let hour_avg := ops.div st.hour_stats.sum st.hour_stats.count
    { st with
      divisions := st.divisions ++ [{ num := st.hour_stats.sum, den := st.hour_stats.count }]
      fs := append_log fmt st.fs "log_hour.txt" clk.time_buf hour_avg
      hour_stats := { sum := ops.zero, count := 0, last_time_unit := clk.curr_hour } }
  else st

/-- Lines 232-241: the day window is flushed when the day has changed. -/
def day_rollover {D F : Type} (ops : FloatOps D F) (fmt : F → List Char)
    (st : State D) (clk : Clock) : State D :=
  if clk.curr_day ≠ st.day_stats.last_time_unit then
    let day_avg := ops.div st.day_stats.sum st.day_stats.count
    { st with
      divisions := st.divisions ++ [{ num := st.day_stats.sum, den := st.day_stats.count }]
      fs := append_log fmt st.fs "log_day.txt" clk.time_buf day_avg
      day_stats := { sum := ops.zero, count := 0, last_time_unit := clk.curr_day } }
  else st

/-- Lines 214-241 for one Reading `temp`: log, add, check, reset. -/
def process_reading {D F : Type} (ops : FloatOps D F) (fmt : F → List Char)
    (st : State D) (clk : Clock) (temp : F) : State D :=
  day_rollover ops fmt (hour_rollover ops fmt (accumulate ops fmt st clk temp) clk) clk

/-- The aggregator over a sequence of Readings, each with its clock values. -/
def process_all {D F : Type} (ops : FloatOps D F) (fmt : F → List Char)
    (st : State D) (rs : List (Clock × F)) : State D :=
  rs.foldl (fun s r => process_reading ops fmt s r.1 r.2) st

/-- Lines 243-251: the three logs are pruned when the last pruning is an hour old. -/
def main_cleanup {D : Type} (mktime : tm → Int) (st : State D) (clk : Clock) :
    Except (Fault × FS) (State D) :=
  if clk.now - st.last_cleanup > 3600 then do
    let fs1 ← clean_logs mktime clk.now_raw st.fs "log_raw.txt" SEC_IN_DAY
    let fs2 ← clean_logs mktime clk.now_hour fs1 "log_hour.txt" SEC_IN_MONTH
    let fs3 ← clean_logs mktime clk.now_day fs2 "log_day.txt" SEC_IN_YEAR
    pure { st with fs := fs3, last_cleanup := clk.now }
  else pure st

/--
One iteration of `while(1)` (lines 198-257) in which `read_data` delivered the
byte `c`: `none` is a store outside `str_buf`, an error a fault in
`clean_logs`.
-/
def main_step {D F : Type} (ops : FloatOps D F) (fmt : F → List Char)
    (atof : List Char → F) (mktime : tm → Int)
    (st : State D) (c : Char) (clk : Clock) : Option (Except (Fault × FS) (State D)) :=
  match feed st.asm c with
  | none => none
  | some (asm, none) => some (pure { st with asm := asm })
  | some (asm, some record) =>
    let temp := atof record
    some (main_cleanup mktime (process_reading ops fmt { st with asm := asm } clk temp) clk)

/-! ## Reference definitions used to state the properties -/

/--
The bytes the loop of `clean_logs` writes to the temporary file for a source
file `content`: the loop run with one iteration more than there are bytes,
which is enough for it to end (`clean_loop_enough`).
-/
def pruned (mktime : tm → Int) (now max_age_seconds : Int) (content : List Char) :
    List Char :=
  (clean_loop mktime now max_age_seconds (content.length + 1) content []).getD []

/-- The time of the record a line begins with, when its timestamp parses. -/
def record_time (mktime : tm → Int) (line : List Char) : Option Int :=
  (sscanf_date line).map (fun (Y, M, D, h, m, s) =>
    mktime { tm_year := Y - 1900, tm_mon := M - 1, tm_mday := D,
             tm_hour := h, tm_min := m, tm_sec := s, tm_isdst := -1 })

/-- The retention rule: the timestamp parses and the record is not older than `max_age`. -/
def retained (mktime : tm → Int) (now max_age : Int) (line : List Char) : Bool :=
  match record_time mktime line with
  | some t => decide (now - t ≤ max_age)
  | none => false

/-- The lines of a text, each with its newline; the last one may lack it. -/
def lines_of : List Char → List (List Char)
  | [] => []
  | c :: s =>
    if c = '\n' then [c] :: lines_of s
    else
      match lines_of s with
      | [] => [[c]]
      | l :: ls => (c :: l) :: ls

/-- A newline-terminated line that fits the 128-byte buffer `line` of `clean_logs`. -/
def whole_line (l : List Char) : Prop :=
  l.getLast? = some '\n' ∧ '\n' ∉ l.dropLast ∧ l.length ≤ 127

instance (l : List Char) : Decidable (whole_line l) := by
  unfold whole_line; infer_instance

/--
The fixed grammar `YYYY-MM-DD HH:MM:SS` at the start of a line: 4 digits, `-`,
2 digits, `-`, 2 digits, a space, 2 digits, `:`, 2 digits, `:`, 2 digits.
-/
def matches_grammar : List Char → Bool
  | y1 :: y2 :: y3 :: y4 :: a :: m1 :: m2 :: b :: d1 :: d2 :: sp ::
      h1 :: h2 :: c :: n1 :: n2 :: e :: s1 :: s2 :: _ =>
    y1.isDigit && y2.isDigit && y3.isDigit && y4.isDigit && a = '-' &&
    m1.isDigit && m2.isDigit && b = '-' && d1.isDigit && d2.isDigit && sp = ' ' &&
    h1.isDigit && h2.isDigit && c = ':' && n1.isDigit && n2.isDigit && e = ':' &&
    s1.isDigit && s2.isDigit
  | _ => false

/--
An instance of the C library `mktime` for a host whose local time is UTC, for
fields with `tm_mon` between 0 and 11: seconds since 1970-01-01 00:00:00.
-/
def utc_mktime (t : tm) : Int :=
  let m := t.tm_mon + 1
  let y := if m ≤ 2 then t.tm_year + 1900 - 1 else t.tm_year + 1900
  let era := (if 0 ≤ y then y else y - 399) / 400
  let yoe := y - era * 400
  let doy := (153 * (if 2 < m then m - 3 else m + 9) + 2) / 5 + t.tm_mday - 1
  let doe := yoe * 365 + yoe / 4 - yoe / 100 + doy
  (era * 146097 + doe - 719468) * 86400 + t.tm_hour * 3600 + t.tm_min * 60 + t.tm_sec

/--
An instance of the `%.2f` conversion for exact rationals: two decimals, ties
rounded away from zero.
-/
def fmt_exact (q : ℚ) : List Char :=
  let k : Nat := (Rat.floor (|q| * 100 + 1 / 2)).toNat
  (if q < 0 then ['-'] else []) ++ (Nat.repr (k / 100)).toList ++ ['.']
    ++ [Nat.digitChar (k % 100 / 10), Nat.digitChar (k % 10)]

/-- Clock values of a Reading taken at `time_buf` in hour `h` of day `d`. -/
def Clock.at (time_buf : String) (h d : Int) : Clock :=
  { time_buf := time_buf.toList, curr_hour := h, curr_day := d,
    now := 0, now_raw := 0, now_hour := 0, now_day := 0 }

/-- A fresh record of 130 bytes: longer than one `fgets` of `clean_logs` reads. -/
def long_line : List Char :=
  "2026-01-01 00:00:00 | ".toList ++ List.replicate 107 'x' ++ ['\n']

/-- A fresh record of 28 bytes that holds a NUL byte before its newline. -/
def nul_line : List Char :=
  "2026-01-01 00:00:00 | 1.00".toList ++ [NUL, '\n']

/-- A file of two fresh records: `nul_line`, then one of 123 bytes. -/
def nul_file : List Char :=
  nul_line ++ "2026-01-01 00:00:00 | ".toList ++ List.replicate 100 'x' ++ ['\n']

/-- A line of 154 bytes: 127 bytes `x`, then the text of a fresh record. -/
def junk_line : List Char :=
  List.replicate 127 'x' ++ "2026-01-01 00:00:00 | 1.00\n".toList

set_option maxRecDepth 100000

/-! ## The line assembler -/

theorem store_some {a : List Char} {i : Nat} (c : Char) (h : i < a.length) :
    store a i c = some (a.set i c) := by
  simp [store, h]

theorem cstr_set_NUL_length : ∀ (a : List Char) (i : Nat), i < a.length →
    (cstr (a.set i NUL)).length ≤ i
  | [], _, h => by simp at h
  | _ :: _, 0, _ => by simp [cstr, List.takeWhile]
  | x :: a, i + 1, h => by
    have ih := cstr_set_NUL_length a i (by simpa using h)
    simp only [cstr, List.set_cons_succ, List.takeWhile_cons] at ih ⊢
    split
    · simpa using ih
    · simp

/-- One call of `feed` from a state with a 64-byte buffer and `pos ≤ 63`. -/
theorem feed_spec (st : Assembler) (c : Char) (hlen : st.str_buf.length = 64)
    (hpos : st.pos ≤ 63) :
    ∃ st1 out, feed st c = some (st1, out) ∧ st1.str_buf.length = 64 ∧ st1.pos ≤ 63 ∧
      (out.isSome = (decide (c = '\n') || decide (st.pos = 63))) ∧
      (c ≠ '\n' → st.pos < 63 → st1.pos = st.pos + 1) ∧
      (c = '\n' → st1.pos = 0) ∧
      ∀ r, out = some r → r.length ≤ 63 := by
  have hlt : st.pos < st.str_buf.length := by omega
  by_cases hc : c ≠ '\n' ∧ st.pos < 63
  · refine ⟨{ str_buf := st.str_buf.set st.pos c, pos := st.pos + 1 }, none, ?_, ?_, ?_, ?_, ?_, ?_, ?_⟩
    · simp only [feed, if_pos hc, store_some c hlt, Option.map_some']
    · simpa using hlen
    · simp only; omega
    · have h1 : ¬ c = '\n' := hc.1
      have h2 : ¬ st.pos = 63 := by omega
      simp [h1, h2]
    · intros; rfl
    · intro h; exact absurd h hc.1
    · intro r h; cases h
  · refine ⟨{ str_buf := st.str_buf.set st.pos NUL, pos := 0 }, some (cstr (st.str_buf.set st.pos NUL)), ?_, ?_, ?_, ?_, ?_, ?_, ?_⟩
    · simp only [feed, if_neg hc, store_some NUL hlt, Option.map_some']
    · simpa using hlen
    · simp
    · by_cases h1 : c = '\n'
      · simp [h1]
      · have h2 : st.pos = 63 := by
          have : ¬ st.pos < 63 := fun h => hc ⟨h1, h⟩
          omega
        simp [h2]
    · intro h1 h2; exact absurd ⟨h1, h2⟩ hc
    · intros; rfl
    · intro r h
      cases h
      exact le_trans (cstr_set_NUL_length _ _ hlt) hpos

theorem feed_all_inv : ∀ (bs : List Char) (st : Assembler), st.str_buf.length = 64 →
    st.pos ≤ 63 →
    ∃ st1 outs, feed_all st bs = some (st1, outs) ∧ st1.str_buf.length = 64 ∧
      st1.pos ≤ 63 ∧ ∀ r, some r ∈ outs → r.length ≤ 63
  | [], st, hlen, hpos => ⟨st, [], rfl, hlen, hpos, by simp⟩
  | c :: cs, st, hlen, hpos => by
    obtain ⟨st1, out, hfeed, hlen1, hpos1, -, -, -, hrec⟩ := feed_spec st c hlen hpos
    obtain ⟨st2, outs, hall, hlen2, hpos2, hrecs⟩ := feed_all_inv cs st1 hlen1 hpos1
    refine ⟨st2, out :: outs, ?_, hlen2, hpos2, ?_⟩
    · simp only [feed_all, hfeed, hall]
    · intro r hr
      rcases List.mem_cons.1 hr with h | h
      · exact hrec r h.symm
      · exact hrecs r h

theorem feed_all_short_runs : ∀ (bs : List Char) (st : Assembler), st.str_buf.length = 64 →
    (∀ run rest, bs.splitOn '\n' = run :: rest →
      st.pos + run.length ≤ 63 ∧ ∀ r ∈ rest, r.length ≤ 63) →
    ∃ st1 outs, feed_all st bs = some (st1, outs) ∧
      outs.map Option.isSome = bs.map (fun b => decide (b = '\n'))
  | [], st, _, _ => ⟨st, [], rfl, rfl⟩
  | c :: cs, st, hlen, hruns => by
    obtain ⟨run0, rest0, hsplit0⟩ := List.exists_cons_of_ne_nil
      (List.splitOnP_ne_nil (fun x => x == '\n') cs)
    have hsplit : (c :: cs).splitOn '\n' =
        if c = '\n' then [] :: run0 :: rest0 else (c :: run0) :: rest0 := by
      unfold List.splitOn
      rw [List.splitOnP_cons, hsplit0]
      by_cases hc : c = '\n' <;> simp [hc, List.modifyHead]
    have hpos : st.pos ≤ 63 := by
      by_cases hc : c = '\n'
      · have := (hruns _ _ (by rw [hsplit, if_pos hc])).1; omega
      · have := (hruns _ _ (by rw [hsplit, if_neg hc])).1; omega
    obtain ⟨st1, out, hfeed, hlen1, -, hout, hstep, hnl, -⟩ := feed_spec st c hlen hpos
    have hnext : ∀ run rest, cs.splitOn '\n' = run :: rest →
        st1.pos + run.length ≤ 63 ∧ ∀ r ∈ rest, r.length ≤ 63 := by
      intro run rest hsp
      have hsp : run0 :: rest0 = run :: rest := by rw [← hsplit0]; exact hsp
      injection hsp with h1 h2
      subst h1 h2
      by_cases hc : c = '\n'
      · have h := hruns _ _ (by rw [hsplit, if_pos hc])
        rw [hnl hc]
        refine ⟨?_, fun r hr => h.2 r (List.mem_cons_of_mem _ hr)⟩
        have := h.2 run0 (List.mem_cons_self _ _)
        omega
      · have h := hruns _ _ (by rw [hsplit, if_neg hc])
        have h1 := h.1
        simp only [List.length_cons] at h1
        rw [hstep hc (by omega)]
        exact ⟨by omega, h.2⟩
    obtain ⟨st2, outs, hall, hmap⟩ := feed_all_short_runs cs st1 hlen1 hnext
    refine ⟨st2, out :: outs, ?_, ?_⟩
    · simp only [feed_all, hfeed, hall]
    · have h63 : ¬ st.pos = 63 ∨ c = '\n' := by
        by_cases hc : c = '\n'
        · exact Or.inr hc
        · have := (hruns _ _ (by rw [hsplit, if_neg hc])).1
          simp only [List.length_cons] at this
          exact Or.inl (by omega)
      simp only [List.map_cons, hmap, hout]
      rcases h63 with h | h <;> simp [h]

theorem readings_of_flags : ∀ (outs : List (Option (List Char))) (bs : List Char),
    outs.map Option.isSome = bs.map (fun b => decide (b = '\n')) →
    readings outs = bs.count '\n'
  | [], [], _ => rfl
  | [], _ :: _, h => by simp at h
  | _ :: _, [], h => by simp at h
  | o :: outs, b :: bs, h => by
    simp only [List.map_cons, List.cons.injEq] at h
    have ih := readings_of_flags outs bs h.2
    unfold readings at ih ⊢
    by_cases hb : b = '\n'
    · have ho : o.isSome = true := by simpa [hb] using h.1
      simp [List.filter_cons, ho, hb, ih]
    · have ho : o.isSome = false := by simpa [hb] using h.1
      have hb2 : ¬ (b == '\n') = true := by simpa using hb
      simp [List.filter_cons, ho, List.count_cons, hb2, ih]

theorem cstr_append_NUL : ∀ (l r : List Char), cstr (l ++ NUL :: r) = cstr l
  | [], r => by simp [cstr]
  | x :: l, r => by
    have ih := cstr_append_NUL l r
    simp only [cstr, List.cons_append, List.takeWhile_cons] at ih ⊢
    split
    · rw [ih]
    · rfl

theorem set_last_64 (a : List Char) (c : Char) (h : a.length = 64) :
    a.set 63 c = a.take 63 ++ [c] := by
  apply List.ext_getElem
  · simp [h]
  · intro i h1 h2
    simp only [List.length_set] at h1
    by_cases hi : i = 63
    · subst hi; simp [h]
    · have : i < 63 := by omega
      rw [List.getElem_set_ne (by omega)]
      rw [List.getElem_append_left (by simp [h]; omega)]
      simp

/--
C10 (bounded buffer).  From `pos = 0` and a 64-byte `str_buf`, after every
number `k` of bytes of every byte sequence: no store fell outside `str_buf`
(the run is not a fault), the buffer still has 64 bytes, the cursor is at most
63, and every record handed to `atof` has at most 63 bytes.
-/
theorem cursor_stays_inside_buffer (buf bs : List Char) (k : Nat) (hbuf : buf.length = 64) :
    ∃ st outs, feed_all (Assembler.init buf) (bs.take k) = some (st, outs) ∧
      st.str_buf.length = 64 ∧ st.pos ≤ 63 ∧ ∀ r, some r ∈ outs → r.length ≤ 63 :=
  feed_all_inv (bs.take k) (Assembler.init buf) hbuf (Nat.zero_le 63)

/-- Seventy bytes without a newline, fed to an empty buffer. -/
theorem cursor_stays_inside_buffer_witness :
    ∃ st outs, feed_all (Assembler.init (List.replicate 64 NUL))
        ((List.replicate 70 'x').take 70) = some (st, outs) ∧
      st.str_buf.length = 64 ∧ st.pos ≤ 63 ∧ ∀ r, some r ∈ outs → r.length ≤ 63 :=
  cursor_stays_inside_buffer (List.replicate 64 NUL) (List.replicate 70 'x') 70 (by decide)

/--
C1 (amended).  When no run of bytes between newlines is longer than 63, the
assembler started on an empty 64-byte buffer emits a Reading at a byte exactly
when that byte is a newline, so the number of Readings is the number of
newline bytes.
-/
theorem readings_match_newlines (buf bs : List Char) (hbuf : buf.length = 64)
    (hruns : ∀ run ∈ bs.splitOn '\n', run.length ≤ 63) :
    ∃ st outs, feed_all (Assembler.init buf) bs = some (st, outs) ∧
      readings outs = bs.count '\n' ∧
      outs.map Option.isSome = bs.map (fun b => decide (b = '\n')) := by
  obtain ⟨st, outs, hall, hmap⟩ := feed_all_short_runs bs (Assembler.init buf) hbuf (by
    intro run rest hsp
    have h1 := hruns run (by rw [hsp]; exact List.mem_cons_self _ _)
    refine ⟨by simpa [Assembler.init] using h1, fun r hr => hruns r ?_⟩
    rw [hsp]; exact List.mem_cons_of_mem _ hr)
  exact ⟨st, outs, hall, readings_of_flags outs bs hmap, hmap⟩

/-- The bytes of two records, `23.5` and `24.0`, each ended by a newline. -/
theorem readings_match_newlines_witness :
    (List.replicate 64 NUL).length = 64 ∧
    (∀ run ∈ "23.5\n24.0\n".toList.splitOn '\n', run.length ≤ 63) ∧
    ∃ st outs, feed_all (Assembler.init (List.replicate 64 NUL)) "23.5\n24.0\n".toList
        = some (st, outs) ∧
      readings outs = "23.5\n24.0\n".toList.count '\n' ∧
      outs.map Option.isSome = "23.5\n24.0\n".toList.map (fun b => decide (b = '\n')) :=
  ⟨by decide, by decide,
    readings_match_newlines (List.replicate 64 NUL) "23.5\n24.0\n".toList (by decide) (by decide)⟩

/--
C1 fails as stated: 64 bytes `a` hold no newline, yet the 64th one finds
`pos = 63`, fails the test `pos < 63` of line 200 and emits a Reading made of
the first 63 bytes.
-/
theorem full_buffer_run_emits_reading :
    (feed_all (Assembler.init (List.replicate 64 NUL)) (List.replicate 64 'a')).map
        (fun r => (readings r.2, r.2.getLast?))
      = some (1, some (some (List.replicate 63 'a'))) ∧
    (List.replicate 64 'a').count '\n' = 0 := by
  decide

/--
C8 (amended).  With the cursor at 63 in the 64-byte buffer, a received byte,
newline or not, is not stored: bytes 0 to 62 stay, the terminator goes to index
63, the cursor returns to 0, and a Reading is emitted at once from the record
cut to its first 63 bytes.
-/
theorem full_buffer_byte_flushes (st : Assembler) (c : Char)
    (hlen : st.str_buf.length = 64) (hpos : st.pos = 63) :
    feed st c = some ({ str_buf := st.str_buf.take 63 ++ [NUL], pos := 0 },
      some (cstr (st.str_buf.take 63))) := by
  have hcond : ¬ (c ≠ '\n' ∧ st.pos < 63) := by omega
  have hlt : st.pos < st.str_buf.length := by omega
  unfold feed
  rw [if_neg hcond, store_some NUL hlt, hpos, set_last_64 _ NUL hlen]
  simp only [Option.map_some', cstr_append_NUL]

/-- A full buffer of `z` receives the byte `y`. -/
theorem full_buffer_byte_flushes_witness :
    feed { str_buf := List.replicate 64 'z', pos := 63 } 'y'
      = some ({ str_buf := (List.replicate 64 'z').take 63 ++ [NUL], pos := 0 },
          some (cstr ((List.replicate 64 'z').take 63))) :=
  full_buffer_byte_flushes { str_buf := List.replicate 64 'z', pos := 63 } 'y'
    (by decide) rfl

/--
C8 fails as stated: at `pos = 63` the non-newline byte `b` resets the cursor
to 0 and emits a Reading; the state is not left as it was with no Reading.
-/
theorem full_buffer_byte_not_dropped :
    feed { str_buf := List.replicate 64 'a', pos := 63 } 'b'
      = some ({ str_buf := List.replicate 63 'a' ++ [NUL], pos := 0 },
          some (List.replicate 63 'a')) ∧
    feed { str_buf := List.replicate 64 'a', pos := 63 } 'b'
      ≠ some ({ str_buf := List.replicate 64 'a', pos := 63 }, none) := by
  decide

/-! ## The rolling aggregator -/

section
variable {D F : Type} (ops : FloatOps D F) (fmt : F → List Char)

theorem process_reading_same_unit (st : State D) (clk : Clock) (temp : F)
    (hh : clk.curr_hour = st.hour_stats.last_time_unit)
    (hd : clk.curr_day = st.day_stats.last_time_unit) :
    process_reading ops fmt st clk temp = accumulate ops fmt st clk temp := by
  have h1 : ¬ clk.curr_hour ≠ (accumulate ops fmt st clk temp).hour_stats.last_time_unit := by
    simpa [accumulate] using hh
  have h2 : ¬ clk.curr_day ≠ (accumulate ops fmt st clk temp).day_stats.last_time_unit := by
    simpa [accumulate] using hd
  unfold process_reading hour_rollover
  rw [if_neg h1]
  unfold day_rollover
  rw [if_neg h2]

theorem append_log_other (fs : FS) (name other : String) (t : List Char) (v : F)
    (h : other ≠ name) : append_log fmt fs name t v other = fs other := by
  simp [append_log, FS.write, h]

theorem process_all_same_unit : ∀ (rs : List (Clock × F)) (st : State D),
    (∀ r ∈ rs, r.1.curr_hour = st.hour_stats.last_time_unit ∧
      r.1.curr_day = st.day_stats.last_time_unit) →
    (process_all ops fmt st rs).hour_stats
      = { sum := rs.foldl (fun a r => ops.add a r.2) st.hour_stats.sum
          count := st.hour_stats.count + rs.length
          last_time_unit := st.hour_stats.last_time_unit } ∧
    (process_all ops fmt st rs).day_stats
      = { sum := rs.foldl (fun a r => ops.add a r.2) st.day_stats.sum
          count := st.day_stats.count + rs.length
          last_time_unit := st.day_stats.last_time_unit } ∧
    (process_all ops fmt st rs).fs "log_hour.txt" = st.fs "log_hour.txt" ∧
    (process_all ops fmt st rs).fs "log_day.txt" = st.fs "log_day.txt" ∧
    (process_all ops fmt st rs).divisions = st.divisions
  | [], st, _ => by simp [process_all]
  | r :: rs, st, h => by
    have hr := h r (List.mem_cons_self _ _)
    have hstep := process_reading_same_unit ops fmt st r.1 r.2 hr.1 hr.2
    have ih := process_all_same_unit rs (accumulate ops fmt st r.1 r.2) (by
      intro x hx
      simpa [accumulate] using h x (List.mem_cons_of_mem _ hx))
    have e : process_all ops fmt st (r :: rs)
        = process_all ops fmt (accumulate ops fmt st r.1 r.2) rs := by
      simp [process_all, hstep]
    rw [e]
    obtain ⟨i1, i2, i3, i4, i5⟩ := ih
    refine ⟨?_, ?_, ?_, ?_, ?_⟩
    · rw [i1]; simp [accumulate]; omega
    · rw [i2]; simp [accumulate]; omega
    · rw [i3]; simp [accumulate, append_log_other]
    · rw [i4]; simp [accumulate, append_log_other]
    · rw [i5]; simp [accumulate]

theorem hour_rollover_inv (st : State D) (clk : Clock)
    (h : 1 ≤ st.hour_stats.count ∧ 1 ≤ st.day_stats.count ∧ ∀ d ∈ st.divisions, 1 ≤ d.den) :
    0 ≤ (hour_rollover ops fmt st clk).hour_stats.count ∧
    1 ≤ (hour_rollover ops fmt st clk).day_stats.count ∧
    ∀ d ∈ (hour_rollover ops fmt st clk).divisions, 1 ≤ d.den := by
  obtain ⟨h1, h2, h3⟩ := h
  unfold hour_rollover
  split
  · refine ⟨le_refl _, h2, ?_⟩
    intro d hd
    rcases List.mem_append.1 hd with hd | hd
    · exact h3 d hd
    · rw [List.mem_singleton.1 hd]; exact h1
  · exact ⟨by omega, h2, h3⟩

theorem day_rollover_inv (st : State D) (clk : Clock)
    (h : 0 ≤ st.hour_stats.count ∧ 1 ≤ st.day_stats.count ∧ ∀ d ∈ st.divisions, 1 ≤ d.den) :
    0 ≤ (day_rollover ops fmt st clk).hour_stats.count ∧
    0 ≤ (day_rollover ops fmt st clk).day_stats.count ∧
    ∀ d ∈ (day_rollover ops fmt st clk).divisions, 1 ≤ d.den := by
  obtain ⟨h1, h2, h3⟩ := h
  unfold day_rollover
  split
  · refine ⟨h1, le_refl _, ?_⟩
    intro d hd
    rcases List.mem_append.1 hd with hd | hd
    · exact h3 d hd
    · rw [List.mem_singleton.1 hd]; exact h2
  · exact ⟨h1, by omega, h3⟩

theorem process_reading_inv (st : State D) (clk : Clock) (temp : F)
    (h : 0 ≤ st.hour_stats.count ∧ 0 ≤ st.day_stats.count ∧ ∀ d ∈ st.divisions, 1 ≤ d.den) :
    0 ≤ (process_reading ops fmt st clk temp).hour_stats.count ∧
    0 ≤ (process_reading ops fmt st clk temp).day_stats.count ∧
    ∀ d ∈ (process_reading ops fmt st clk temp).divisions, 1 ≤ d.den := by
  obtain ⟨h1, h2, h3⟩ := h
  unfold process_reading
  apply day_rollover_inv
  apply hour_rollover_inv
  refine ⟨?_, ?_, h3⟩
  · show 1 ≤ st.hour_stats.count + 1
    omega
  · show 1 ≤ st.day_stats.count + 1
    omega

theorem process_all_inv : ∀ (rs : List (Clock × F)) (st : State D),
    (0 ≤ st.hour_stats.count ∧ 0 ≤ st.day_stats.count ∧ ∀ d ∈ st.divisions, 1 ≤ d.den) →
    0 ≤ (process_all ops fmt st rs).hour_stats.count ∧
    0 ≤ (process_all ops fmt st rs).day_stats.count ∧
    ∀ d ∈ (process_all ops fmt st rs).divisions, 1 ≤ d.den
  | [], _, h => h
  | r :: rs, st, h =>
    process_all_inv rs (process_reading ops fmt st r.1 r.2)
      (process_reading_inv ops fmt st r.1 r.2 h)

theorem process_reading_count_le (st : State D) (clk : Clock) (temp : F)
    (h1 : 0 ≤ st.hour_stats.count) (h2 : 0 ≤ st.day_stats.count) :
    (0 ≤ (process_reading ops fmt st clk temp).hour_stats.count ∧
      (process_reading ops fmt st clk temp).hour_stats.count ≤ st.hour_stats.count + 1) ∧
    (0 ≤ (process_reading ops fmt st clk temp).day_stats.count ∧
      (process_reading ops fmt st clk temp).day_stats.count ≤ st.day_stats.count + 1) := by
  unfold process_reading day_rollover hour_rollover
  split <;> split <;> simp [accumulate] <;> omega

theorem process_all_count_le : ∀ (rs : List (Clock × F)) (st : State D) (n : Int),
    0 ≤ st.hour_stats.count → 0 ≤ st.day_stats.count →
    st.hour_stats.count ≤ n → st.day_stats.count ≤ n →
    (process_all ops fmt st rs).hour_stats.count ≤ n + rs.length ∧
    (process_all ops fmt st rs).day_stats.count ≤ n + rs.length
  | [], _, _, _, _, h3, h4 => by simpa [process_all] using And.intro h3 h4
  | r :: rs, st, n, h1, h2, h3, h4 => by
    obtain ⟨⟨a1, a2⟩, b1, b2⟩ := process_reading_count_le ops fmt st r.1 r.2 h1 h2
    have ih := process_all_count_le rs (process_reading ops fmt st r.1 r.2) (n + 1)
      a1 b1 (by omega) (by omega)
    have e : process_all ops fmt st (r :: rs)
        = process_all ops fmt (process_reading ops fmt st r.1 r.2) rs := rfl
    rw [e]
    simp only [List.length_cons, Nat.cast_add, Nat.cast_one]
    omega

/--
The counters never exceed the number of Readings processed: in a run of fewer
than 2^31 Readings no `count++` leaves the range of a 32-bit `int`.
-/
theorem counts_bounded_by_readings (buf : List Char) (hour day : Int) (fs : FS)
    (rs : List (Clock × F)) :
    (process_all ops fmt (State.start ops buf hour day fs) rs).hour_stats.count ≤ rs.length ∧
    (process_all ops fmt (State.start ops buf hour day fs) rs).day_stats.count ≤ rs.length := by
  have h := process_all_count_le ops fmt rs (State.start ops buf hour day fs) 0
    (le_refl _) (le_refl _) (le_refl _) (le_refl _)
  simpa using h

end

theorem fgets_read_append : ∀ (n : Nat) (s : List Char),
    (fgets_read n s).1 ++ (fgets_read n s).2 = s
  | 0, _ => rfl
  | _ + 1, [] => rfl
  | n + 1, c :: s => by
    by_cases hc : c = '\n'
    · simp [fgets_read, hc]
    · simp [fgets_read, hc, fgets_read_append n s]

theorem fgets_read_ne_nil (n : Nat) (c : Char) (s : List Char) :
    (fgets_read (n + 1) (c :: s)).1 ≠ [] := by
  by_cases hc : c = '\n' <;> simp [fgets_read, hc]

theorem fgets_read_stable : ∀ (n : Nat) (s rest : List Char),
    ((fgets_read n s).2 = [] → rest = []) →
    fgets_read n ((fgets_read n s).1 ++ rest) = ((fgets_read n s).1, rest)
  | 0, _, _, _ => rfl
  | _ + 1, [], rest, h => by
    have : rest = [] := h rfl
    subst this; rfl
  | n + 1, c :: s, rest, h => by
    by_cases hc : c = '\n'
    · simp [fgets_read, hc]
    · have h1 : (fgets_read n s).2 = [] → rest = [] := by
        intro h2; apply h; simp [fgets_read, hc, h2]
      have ih := fgets_read_stable n s rest h1
      simp [fgets_read, hc, ih]

theorem fgets_some {src line rest : List Char} (h : fgets 128 src = some (line, rest)) :
    src = line ++ rest ∧ line ≠ [] ∧ rest.length < src.length ∧
      ∀ rest1, (rest = [] → rest1 = []) → fgets 128 (line ++ rest1) = some (line, rest1) := by
  unfold fgets at h
  by_cases hs : src = []
  · simp [hs] at h
  · rw [if_neg hs] at h
    injection h with h
    have h1 : (fgets_read 127 src).1 = line := by rw [h]
    have h2 : (fgets_read 127 src).2 = rest := by rw [h]
    have happ := fgets_read_append 127 src
    rw [h1, h2] at happ
    have hne : line ≠ [] := by
      obtain ⟨c, s, rfl⟩ := List.exists_cons_of_ne_nil hs
      rw [← h1]; exact fgets_read_ne_nil 126 c s
    refine ⟨happ.symm, hne, ?_, ?_⟩
    · have : src.length = line.length + rest.length := by rw [← happ]; simp
      have : 0 < line.length := List.length_pos.2 hne
      omega
    · intro rest1 hr
      have hst := fgets_read_stable 127 src rest1 (by rw [h2]; exact hr)
      rw [h1] at hst
      unfold fgets
      rw [if_neg (by simp [hne]), ← hst]

theorem clean_line_append (mktime : tm → Int) (now max_age : Int) (line dst : List Char) :
    clean_line mktime now max_age line dst
      = dst ++ clean_line mktime now max_age line [] := by
  unfold clean_line
  split
  · simp only []
    split <;> simp
  · simp

theorem clean_line_retained (mktime : tm → Int) (now max_age : Int) (line : List Char) :
    clean_line mktime now max_age line []
      = if retained mktime now max_age (cstr line) then cstr line else [] := by
  unfold clean_line retained record_time
  cases h : sscanf_date (cstr line) with
  | none => simp
  | some v =>
    obtain ⟨Y, M, D, hh, m, s⟩ := v
    simp

theorem clean_loop_out (mktime : tm → Int) (now max_age : Int) :
    ∀ (fuel : Nat) (src : List Char), src.length < fuel →
      ∃ out, ∀ fuel1 dst, src.length < fuel1 →
        clean_loop mktime now max_age fuel1 src dst = some (dst ++ out)
  | 0, _, h => by omega
  | fuel + 1, src, h => by
    cases hf : fgets 128 src with
    | none =>
      refine ⟨[], ?_⟩
      intro fuel1 dst h1
      obtain ⟨f, rfl⟩ : ∃ f, fuel1 = f + 1 := ⟨fuel1 - 1, by omega⟩
      simp [clean_loop, hf]
    | some lr =>
      obtain ⟨line, rest⟩ := lr
      obtain ⟨-, -, hlt, -⟩ := fgets_some hf
      obtain ⟨out, hout⟩ := clean_loop_out mktime now max_age fuel rest (by omega)
      refine ⟨clean_line mktime now max_age line [] ++ out, ?_⟩
      intro fuel1 dst h1
      obtain ⟨f, rfl⟩ : ∃ f, fuel1 = f + 1 := ⟨fuel1 - 1, by omega⟩
      simp only [clean_loop, hf]
      rw [hout f _ (by omega), clean_line_append, List.append_assoc]

/-- With more iterations than bytes the loop ends, having written `pruned`. -/
theorem clean_loop_enough (mktime : tm → Int) (now max_age : Int) (fuel : Nat)
    (src dst : List Char) (h : src.length < fuel) :
    clean_loop mktime now max_age fuel src dst
      = some (dst ++ pruned mktime now max_age src) := by
  obtain ⟨out, hout⟩ := clean_loop_out mktime now max_age fuel src h
  have hp : pruned mktime now max_age src = out := by
    unfold pruned
    rw [hout (src.length + 1) [] (by omega)]
    simp
  rw [hp]
  exact hout fuel dst h

theorem pruned_nil (mktime : tm → Int) (now max_age : Int) :
    pruned mktime now max_age [] = [] := by
  simp [pruned, clean_loop, fgets]

theorem pruned_step (mktime : tm → Int) (now max_age : Int) {src line rest : List Char}
    (h : fgets 128 src = some (line, rest)) :
    pruned mktime now max_age src
      = clean_line mktime now max_age line [] ++ pruned mktime now max_age rest := by
  obtain ⟨-, -, hlt, -⟩ := fgets_some h
  have h1 : pruned mktime now max_age src
      = (clean_loop mktime now max_age (src.length + 1) src []).getD [] := rfl
  rw [h1]
  simp only [clean_loop, h]
  rw [clean_loop_enough mktime now max_age _ _ _ hlt]
  simp

theorem cstr_of_no_NUL (l : List Char) (h : NUL ∉ l) : cstr l = l := by
  unfold cstr
  rw [List.takeWhile_eq_self_iff]
  intro x hx
  have : x ≠ NUL := fun e => h (e ▸ hx)
  simpa using this

theorem kept_of_no_NUL (mktime : tm → Int) (now max_age : Int) (line : List Char)
    (h : NUL ∉ line) :
    clean_line mktime now max_age line []
      = if retained mktime now max_age line then line else [] := by
  rw [clean_line_retained, cstr_of_no_NUL line h]

theorem pruned_idem (mktime : tm → Int) (now max_age : Int) :
    ∀ (n : Nat) (src : List Char), src.length ≤ n → NUL ∉ src →
      pruned mktime now max_age (pruned mktime now max_age src)
        = pruned mktime now max_age src
  | 0, src, hn, _ => by
    have : src = [] := List.length_eq_zero.1 (by omega)
    subst this
    simp [pruned_nil]
  | n + 1, src, hn, hnul => by
    cases hf : fgets 128 src with
    | none =>
      have : src = [] := by
        unfold fgets at hf
        by_contra hs
        simp [hs] at hf
      subst this
      simp [pruned_nil]
    | some lr =>
      obtain ⟨line, rest⟩ := lr
      obtain ⟨hsrc, hne, hlt, hstable⟩ := fgets_some hf
      have hnul1 : NUL ∉ line := fun h => hnul (by rw [hsrc]; exact List.mem_append_left _ h)
      have hnul2 : NUL ∉ rest := fun h => hnul (by rw [hsrc]; exact List.mem_append_right _ h)
      have ih := pruned_idem mktime now max_age n rest (by omega) hnul2
      rw [pruned_step mktime now max_age hf, kept_of_no_NUL mktime now max_age line hnul1]
      by_cases hk : retained mktime now max_age line = true
      · rw [if_pos hk]
        have hf2 := hstable (pruned mktime now max_age rest) (by
          intro hr; rw [hr, pruned_nil])
        rw [pruned_step mktime now max_age hf2,
          kept_of_no_NUL mktime now max_age line hnul1, if_pos hk, ih]
      · rw [if_neg hk]
        simpa using ih

theorem lines_of_ne_nil (c : Char) (s : List Char) : lines_of (c :: s) ≠ [] := by
  unfold lines_of
  split
  · simp
  · split <;> simp

theorem fgets_read_nil (n : Nat) : fgets_read n [] = ([], []) := by
  cases n <;> rfl

theorem fgets_read_first_line : ∀ (s : List Char) (n : Nat) (l : List Char)
    (ls : List (List Char)), lines_of s = l :: ls → l.length ≤ n →
    (fgets_read n s).1 = l ∧ lines_of (fgets_read n s).2 = ls
  | [], _, _, _, h, _ => by simp [lines_of] at h
  | c :: s, n, l, ls, h, hn => by
    unfold lines_of at h
    by_cases hc : c = '\n'
    · rw [if_pos hc] at h
      injection h with h1 h2
      subst h1
      obtain ⟨m, rfl⟩ : ∃ m, n = m + 1 := ⟨n - 1, by simp at hn; omega⟩
      simp [fgets_read, hc, h2]
    · rw [if_neg hc] at h
      cases hs : lines_of s with
      | nil =>
        rw [hs] at h
        injection h with h1 h2
        subst h1 h2
        have hnil : s = [] := by
          cases s with
          | nil => rfl
          | cons x xs => exact absurd hs (lines_of_ne_nil x xs)
        subst hnil
        obtain ⟨m, rfl⟩ : ∃ m, n = m + 1 := ⟨n - 1, by simp at hn; omega⟩
        simp [fgets_read, hc, fgets_read_nil, lines_of]
      | cons l1 ls1 =>
        rw [hs] at h
        injection h with h1 h2
        subst h1 h2
        obtain ⟨m, rfl⟩ : ∃ m, n = m + 1 := ⟨n - 1, by simp at hn; omega⟩
        have ih := fgets_read_first_line s m l1 ls1 hs (by simpa using hn)
        simp [fgets_read, hc, ih.1, ih.2]

theorem pruned_short_lines (mktime : tm → Int) (now max_age : Int) :
    ∀ (n : Nat) (src : List Char), src.length ≤ n → NUL ∉ src →
      (∀ l ∈ lines_of src, l.length ≤ 127) →
      pruned mktime now max_age src
        = ((lines_of src).filter (retained mktime now max_age)).flatten
  | 0, src, hn, _, _ => by
    have : src = [] := List.length_eq_zero.1 (by omega)
    subst this
    simp [pruned_nil, lines_of]
  | n + 1, [], _, _, _ => by simp [pruned_nil, lines_of]
  | n + 1, c :: s, hn, hnul, hshort => by
    obtain ⟨l, ls, hl⟩ := List.exists_cons_of_ne_nil (lines_of_ne_nil c s)
    have hlen : l.length ≤ 127 := hshort l (by rw [hl]; exact List.mem_cons_self _ _)
    obtain ⟨h1, h2⟩ := fgets_read_first_line (c :: s) 127 l ls hl hlen
    have hf : fgets 128 (c :: s) = some (l, (fgets_read 127 (c :: s)).2) := by
      unfold fgets
      rw [if_neg (by simp), ← h1]
    obtain ⟨hsrc, -, hlt, -⟩ := fgets_some hf
    have hnul1 : NUL ∉ l := fun h => hnul (by rw [hsrc]; exact List.mem_append_left _ h)
    have hnul2 : NUL ∉ (fgets_read 127 (c :: s)).2 :=
      fun h => hnul (by rw [hsrc]; exact List.mem_append_right _ h)
    have ih := pruned_short_lines mktime now max_age n _ (by omega) hnul2 (by
      rw [h2]; intro x hx; exact hshort x (by rw [hl]; exact List.mem_cons_of_mem _ hx))
    rw [pruned_step mktime now max_age hf, kept_of_no_NUL mktime now max_age l hnul1, ih,
      h2, hl, List.filter_cons]
    by_cases hk : retained mktime now max_age l = true
    · simp [hk]
    · simp [hk]

theorem fgets_read_terminated : ∀ (body : List Char) (n : Nat) (rest : List Char),
    '\n' ∉ body → body.length < n →
    fgets_read n (body ++ '\n' :: rest) = (body ++ ['\n'], rest)
  | [], n, rest, _, hn => by
    obtain ⟨m, rfl⟩ : ∃ m, n = m + 1 := ⟨n - 1, by simp at hn; omega⟩
    simp [fgets_read]
  | c :: body, n, rest, hb, hn => by
    obtain ⟨m, rfl⟩ : ∃ m, n = m + 1 := ⟨n - 1, by simp at hn; omega⟩
    have hc : ¬ c = '\n' := fun e => hb (by simp [e])
    have ih := fgets_read_terminated body m rest (fun h => hb (List.mem_cons_of_mem _ h))
      (by simpa using hn)
    simp [fgets_read, hc, ih]

theorem fgets_whole_line (l rest : List Char) (h : whole_line l) :
    fgets 128 (l ++ rest) = some (l, rest) := by
  obtain ⟨h1, h2, h3⟩ := h
  have hl : l.dropLast ++ ['\n'] = l := List.dropLast_append_getLast? _ h1
  have hlen : l.dropLast.length < 127 := by
    have : l.length = l.dropLast.length + 1 := by
      conv_lhs => rw [← hl]
      simp
    omega
  have hr := fgets_read_terminated l.dropLast 127 rest h2 hlen
  unfold fgets
  have hne : l ++ rest ≠ [] := by
    rw [← hl]; simp
  rw [if_neg hne]
  have e : l ++ rest = l.dropLast ++ '\n' :: rest := by
    conv_lhs => rw [← hl]
    simp
  rw [e, show 128 - 1 = 127 from rfl, hr, hl]

theorem fgets_read_unterminated : ∀ (l : List Char) (n : Nat),
    '\n' ∉ l → l.length ≤ n → fgets_read n l = (l, [])
  | [], n, _, _ => fgets_read_nil n
  | c :: l, n, hl, hn => by
    obtain ⟨m, rfl⟩ : ∃ m, n = m + 1 := ⟨n - 1, by simp at hn; omega⟩
    have hc : ¬ c = '\n' := fun e => hl (by simp [e])
    have ih := fgets_read_unterminated l m (fun h => hl (List.mem_cons_of_mem _ h))
      (by simpa using hn)
    simp [fgets_read, hc, ih]

theorem pruned_unparsed (mktime : tm → Int) (now max_age : Int) (line after : List Char)
    (hline : whole_line line ∨ (after = [] ∧ '\n' ∉ line ∧ line.length ≤ 127))
    (hparse : sscanf_date (cstr line) = none) :
    pruned mktime now max_age (line ++ after) = pruned mktime now max_age after := by
  have hdrop : clean_line mktime now max_age line [] = [] := by
    simp [clean_line, hparse]
  rcases hline with h | ⟨h1, h2, h3⟩
  · rw [pruned_step mktime now max_age (fgets_whole_line line after h), hdrop,
      List.nil_append]
  · subst h1
    by_cases hnil : line = []
    · subst hnil; rfl
    · have hf : fgets 128 (line ++ []) = some (line, []) := by
        unfold fgets
        rw [if_neg (by simpa using hnil), List.append_nil,
          fgets_read_unterminated line 127 h2 h3]
      rw [pruned_step mktime now max_age hf, hdrop, List.nil_append]

theorem pruned_whole_lines (mktime : tm → Int) (now max_age : Int) :
    ∀ (cs : List (List Char)) (rest : List Char), (∀ c ∈ cs, whole_line c) →
      pruned mktime now max_age (cs.flatten ++ rest)
        = (cs.map (fun c => clean_line mktime now max_age c [])).flatten
            ++ pruned mktime now max_age rest
  | [], rest, _ => by simp
  | c :: cs, rest, h => by
    have hc := fgets_whole_line c (cs.flatten ++ rest) (h c (List.mem_cons_self _ _))
    have ih := pruned_whole_lines mktime now max_age cs rest
      (fun x hx => h x (List.mem_cons_of_mem _ hx))
    simp only [List.flatten_cons, List.append_assoc, List.map_cons]
    rw [pruned_step mktime now max_age hc, ih]

theorem tmp_name_ne (filename : String) : ¬ filename = filename ++ ".tmp" := by
  intro h
  have h1 := congrArg String.length h
  rw [String.length_append] at h1
  have h4 : ".tmp".length = 4 := by decide
  omega

theorem clean_logs_ok (mktime : tm → Int) (now max_age : Int) (fs : FS) (filename : String)
    (content : List Char) (hname : filename.length ≤ 95) (hfile : fs filename = some content) :
    ∃ fs1, clean_logs mktime now fs filename max_age = .ok fs1 ∧
      ∀ n, fs1 n = if n = filename then some (pruned mktime now max_age content)
        else if n = filename ++ ".tmp" then none else fs n := by
  have hn : ¬ 100 < filename.length + 5 := by omega
  refine ⟨((((fs.write (filename ++ ".tmp") []).write (filename ++ ".tmp")
    (pruned mktime now max_age content)).remove filename).rename
      (filename ++ ".tmp") filename), ?_, ?_⟩
  · unfold clean_logs
    rw [if_neg hn]
    simp only [hfile]
    rw [clean_loop_enough mktime now max_age _ _ _ (Nat.lt_succ_self _)]
    simp only [List.nil_append]
  · intro n
    have hne := tmp_name_ne filename
    have hne2 : ¬ filename ++ ".tmp" = filename := fun h => hne h.symm
    simp only [FS.rename, FS.remove, FS.write, if_neg hne2, if_true, List.nil_append]
    by_cases h1 : n = filename
    · simp [h1]
    · by_cases h2 : n = filename ++ ".tmp"
      · simp [h2, hne2]
      · simp [h1, h2]

theorem FS.write_same (fs : FS) (name : String) (data : List Char) :
    fs.write name data name = some data := by
  simp [FS.write]

theorem clean_logs_null_stream (mktime : tm → Int) (now max_age : Int) (fs : FS)
    (filename : String) (hname : filename.length ≤ 95) (hfile : fs filename = none) :
    clean_logs mktime now fs filename max_age
      = .error (Fault.null_stream, fs.write (filename ++ ".tmp") []) := by
  have hn : ¬ 100 < filename.length + 5 := by omega
  unfold clean_logs
  rw [if_neg hn]
  simp only [hfile]

/--
C7 (what the code does).  When the source log does not exist, `clean_logs` is
not a no-op: it creates the empty temporary file and then faults by handing
the null stream to `fgets`.
-/
theorem clean_logs_missing_source (mktime : tm → Int) (now max_age : Int) (fs : FS)
    (filename : String) (hname : filename.length ≤ 95) (hfile : fs filename = none) :
    clean_logs mktime now fs filename max_age
      = .error (Fault.null_stream, fs.write (filename ++ ".tmp") []) :=
  clean_logs_null_stream mktime now max_age fs filename hname hfile

/-- The call for `log_hour.txt` in a directory without files. -/
theorem clean_logs_missing_source_witness :
    clean_logs utc_mktime 1767225600 FS.empty "log_hour.txt" SEC_IN_MONTH
      = .error (Fault.null_stream, FS.empty.write "log_hour.txt.tmp" []) :=
  clean_logs_missing_source utc_mktime 1767225600 SEC_IN_MONTH FS.empty "log_hour.txt"
    (by decide) rfl

/-! ## The driver loop -/

section
variable {D F : Type} (ops : FloatOps D F) (fmt : F → List Char)

theorem hour_rollover_fs_other (st : State D) (clk : Clock) (name : String)
    (h : name ≠ "log_hour.txt") : (hour_rollover ops fmt st clk).fs name = st.fs name := by
  unfold hour_rollover
  split
  · exact append_log_other fmt st.fs "log_hour.txt" name _ _ h
  · rfl

theorem day_rollover_fs_other (st : State D) (clk : Clock) (name : String)
    (h : name ≠ "log_day.txt") : (day_rollover ops fmt st clk).fs name = st.fs name := by
  unfold day_rollover
  split
  · exact append_log_other fmt st.fs "log_day.txt" name _ _ h
  · rfl

theorem process_reading_last_cleanup (st : State D) (clk : Clock) (temp : F) :
    (process_reading ops fmt st clk temp).last_cleanup = st.last_cleanup := by
  unfold process_reading day_rollover hour_rollover
  split <;> split <;> rfl

theorem process_reading_raw (st : State D) (clk : Clock) (temp : F) :
    ∃ content, (process_reading ops fmt st clk temp).fs "log_raw.txt" = some content := by
  unfold process_reading
  rw [day_rollover_fs_other ops fmt _ clk "log_raw.txt" (by decide),
    hour_rollover_fs_other ops fmt _ clk "log_raw.txt" (by decide)]
  exact ⟨_, FS.write_same st.fs "log_raw.txt" _⟩

theorem process_reading_hour_log (st : State D) (clk : Clock) (temp : F)
    (h : clk.curr_hour = st.hour_stats.last_time_unit) :
    (process_reading ops fmt st clk temp).fs "log_hour.txt" = st.fs "log_hour.txt" := by
  have h1 : ¬ clk.curr_hour ≠ (accumulate ops fmt st clk temp).hour_stats.last_time_unit := by
    simpa [accumulate] using h
  unfold process_reading
  rw [day_rollover_fs_other ops fmt _ clk "log_hour.txt" (by decide)]
  unfold hour_rollover
  rw [if_neg h1]
  exact append_log_other fmt st.fs "log_raw.txt" "log_hour.txt" clk.time_buf temp (by decide)

/--
The first Reading after start-up in a directory without logs: the cleanup is
due (`last_cleanup = 0`), `log_hour.txt` has not been written, and the second
call of `clean_logs` hands a null stream to `fgets`.
-/
theorem first_cleanup_faults (atof : List Char → F) (mktime : tm → Int) (buf : List Char)
    (hour day : Int) (clk : Clock) (hbuf : buf.length = 64) (hhour : clk.curr_hour = hour)
    (hnow : 3600 < clk.now) :
    ∃ fs1, main_step ops fmt atof mktime (State.start ops buf hour day FS.empty) '\n' clk
        = some (.error (Fault.null_stream, fs1)) ∧
      fs1 "log_hour.txt" = none ∧ fs1 "log_hour.txt.tmp" = some [] := by
  have hlt : 0 < buf.length := by omega
  have hfeed : feed (Assembler.init buf) '\n'
      = some ({ str_buf := buf.set 0 NUL, pos := 0 }, some (cstr (buf.set 0 NUL))) := by
    simp only [feed, ne_eq, not_true_eq_false, false_and, if_false, Assembler.init,
      store_some NUL hlt, Option.map_some']
  obtain ⟨content, hcontent⟩ := process_reading_raw ops fmt
    { State.start ops buf hour day FS.empty with
      asm := { str_buf := buf.set 0 NUL, pos := 0 } } clk (atof (cstr (buf.set 0 NUL)))
  have hh := process_reading_hour_log ops fmt
    { State.start ops buf hour day FS.empty with
      asm := { str_buf := buf.set 0 NUL, pos := 0 } } clk (atof (cstr (buf.set 0 NUL))) hhour
  have hlast := process_reading_last_cleanup ops fmt
    { State.start ops buf hour day FS.empty with
      asm := { str_buf := buf.set 0 NUL, pos := 0 } } clk (atof (cstr (buf.set 0 NUL)))
  obtain ⟨fs1, hok, hfs1⟩ := clean_logs_ok mktime clk.now_raw SEC_IN_DAY _ "log_raw.txt"
    content (by decide) hcontent
  have hmiss : fs1 "log_hour.txt" = none := by
    rw [hfs1]
    simpa using hh
  refine ⟨fs1.write "log_hour.txt.tmp" [], ?_, ?_, ?_⟩
  · have hstep : main_step ops fmt atof mktime (State.start ops buf hour day FS.empty) '\n' clk
        = some (main_cleanup mktime (process_reading ops fmt
            { State.start ops buf hour day FS.empty with
              asm := { str_buf := buf.set 0 NUL, pos := 0 } } clk
            (atof (cstr (buf.set 0 NUL)))) clk) := by
      simp only [main_step, State.start, hfeed]
    have hcond : clk.now - (process_reading ops fmt
        { State.start ops buf hour day FS.empty with
          asm := { str_buf := buf.set 0 NUL, pos := 0 } } clk
        (atof (cstr (buf.set 0 NUL)))).last_cleanup > 3600 := by
      rw [hlast]
      show clk.now - 0 > 3600
      omega
    rw [hstep]
    unfold main_cleanup
    rw [if_pos hcond, hok]
    have hfault := clean_logs_null_stream mktime clk.now_hour SEC_IN_MONTH fs1
      "log_hour.txt" (by decide) hmiss
    simp only [bind, Except.bind, hfault]
    rfl
  · simp [FS.write, hmiss]
  · simp [FS.write]

end

end Logger
